import Mathlib

/-!
Shallow embedding of the HyprWM tiling engine core:
the tree payload types from src/util/tile.ts, the geometry types from
src/types/grid.ts, and the algorithms from src/core/App.ts (initTree) and
src/core/DesktopManager.ts (pushTree, removeId, workArea, fitTree, fit,
moveResize, splitArea, pointInRectangle).

Geometry uses rationals: the JavaScript arithmetic involved here is addition,
subtraction, comparison and halving of pixel coordinates, which rationals
model exactly. Window identifiers are naturals. JavaScript exceptions are
modelled with Option and Except result types, and in-place mutation is
modelled by returning the updated value.
-/

namespace HyprWM

/-- Rectangle from src/types/grid.ts: an area on a 2D plane, x and y at the
north-west corner. -/
structure Rectangle where
  x : ℚ
  y : ℚ
  width : ℚ
  height : ℚ
deriving DecidableEq

/-- Inset from src/types/grid.ts: a margin with a thickness per side. -/
structure Inset where
  top : ℚ
  right : ℚ
  bottom : ℚ
  left : ℚ
deriving DecidableEq

/-- A 2D point, as passed to pushTree. -/
structure Point where
  x : ℚ
  y : ℚ
deriving DecidableEq

/-- Split orientation of a Container (src/util/tile.ts). -/
inductive Split where
  | Horizontal
  | Vertical
deriving DecidableEq

/-- Tile from src/util/tile.ts: one managed window. The calls in App.ts and
DesktopManager.ts construct tiles with a single argument, which leaves isNew
undefined; undefined is modelled as false. -/
structure Tile where
  id : Nat
  isNew : Bool
deriving DecidableEq

/-- Container from src/util/tile.ts: a binary subdivision with an optional
constraint (offset of the split line from the start edge). -/
structure Container where
  split : Split
  constraint : Option ℚ
deriving DecidableEq

/-- Payload of a tree node: Tile or Container. -/
inductive NodeData where
  | tile (t : Tile)
  | container (c : Container)
deriving DecidableEq

/-- Node from src/types/tree.ts as used by App.ts and DesktopManager.ts:
a data payload and two optional children. -/
inductive Node where
  | mk (data : NodeData) (left : Option Node) (right : Option Node)

/-- JavaScript truthiness of the optional numeric constraint: undefined and 0
are falsy, every other number is truthy. -/
def truthy : Option ℚ → Bool
  | none => false
  | some v => v != 0

/-- Child rectangle computation shared by splitArea and fitTree. The source
duplicates these lines verbatim inside DesktopManager.splitArea and
DesktopManager.fitTree: both children copy the parent rectangle, then the
split dimension (height for Horizontal, width for Vertical) and position
offset (y for Horizontal, x for Vertical) are adjusted; the constraint is
used only when truthy, otherwise the dimension is halved. -/
def childAreas (area : Rectangle) (c : Container) : Rectangle × Rectangle :=
  if truthy c.constraint then
    let left := c.constraint.getD 0
    match c.split with
    | .Horizontal =>
      (⟨area.x, area.y, area.width, left⟩,
       ⟨area.x, area.y + left, area.width, area.height - left⟩)
    | .Vertical =>
      (⟨area.x, area.y, left, area.height⟩,
       ⟨area.x + left, area.y, area.width - left, area.height⟩)
  else
    match c.split with
    | .Horizontal =>
      let half := area.height / 2
      (⟨area.x, area.y, area.width, half⟩,
       ⟨area.x, area.y + half, area.width, half⟩)
    | .Vertical =>
      let half := area.width / 2
      (⟨area.x, area.y, half, area.height⟩,
       ⟨area.x + half, area.y, half, area.height⟩)

/-- DesktopManager.splitArea: when no container is given, a fresh one is
created whose orientation depends on the aspect ratio of the area
(taller-than-wide splits Horizontal, else Vertical) with no constraint. -/
def splitArea (area : Rectangle) (containerOpt : Option Container) :
    Rectangle × Rectangle × Container :=
  let container :=
    match containerOpt with
    | none => Container.mk (if area.height > area.width then .Horizontal else .Vertical) none
    | some c => c
  let areas := childAreas area container
  (areas.1, areas.2, container)

/-- DesktopManager.pointInRectangle: closed-rectangle containment test. -/
def pointInRectangle (p : Point) (r : Rectangle) : Bool :=
  decide (r.x ≤ p.x) && decide (p.x ≤ r.x + r.width) &&
  decide (r.y ≤ p.y) && decide (p.y ≤ r.y + r.height)

/-- Math.clamp as provided by the GNOME shell environment. -/
def mathClamp (v lo hi : ℚ) : ℚ := min (max v lo) hi

/-- DesktopManager.workArea: clamp each inset side to half of the
corresponding raw dimension, then move the raw work area inward by the
clamped inset minus the spacing on each side. -/
def workArea (raw : Rectangle) (inset : Inset) (spacing : ℚ) : Rectangle :=
  let top := mathClamp inset.top 0 (⌊raw.height / 2⌋ : ℚ)
  let bottom := mathClamp inset.bottom 0 (⌊raw.height / 2⌋ : ℚ)
  let left := mathClamp inset.left 0 (⌊raw.width / 2⌋ : ℚ)
  let right := mathClamp inset.right 0 (⌊raw.width / 2⌋ : ℚ)
  ⟨raw.x + (left - spacing),
   raw.y + (top - spacing),
   raw.width - (left + right - spacing * 2),
   raw.height - (top + bottom - spacing * 2)⟩

/-- DesktopManager.pushTree. The source mutates the tree in place and throws
on a malformed node; here the updated tree is returned, and the throw is
modelled as none. Source order of the cases: out-of-area guard, empty
container, tile (with a second, redundant out-of-area guard), populated
container (which recurses into both children), otherwise throw. -/
def pushTree (tree : Node) (point : Point) (newTile : Tile) (area : Rectangle) :
    Option Node :=
  if !pointInRectangle point area then some tree
  else
    match tree with
    | .mk (.container c) none none =>
      -- node has no window: occupy it with the new tile, children untouched
      let _ := c
      some (.mk (.tile newTile) none none)
    | .mk (.tile t) l r =>
      if !pointInRectangle point area then some (.mk (.tile t) l r)
      else
        let s := splitArea area none
        if pointInRectangle point s.1 then
          some (.mk (.container s.2.2)
            (some (.mk (.tile newTile) none none))
            (some (.mk (.tile t) none none)))
        else
          some (.mk (.container s.2.2)
            (some (.mk (.tile t) none none))
            (some (.mk (.tile newTile) none none)))
    | .mk (.container c) (some l) (some r) =>
      let s := splitArea area (some c)
      match pushTree l point newTile s.1, pushTree r point newTile s.2.1 with
      | some l2, some r2 => some (.mk (.container c) (some l2) (some r2))
      | _, _ => none
    | _ => none

/-- Whether a node's payload is a Container (instanceof Container). -/
def isContainerN : Node → Bool
  | .mk (.container _) _ _ => true
  | _ => false

/-- Whether a node's payload is a Tile with the given identifier. -/
def isTileId (n : Node) (id : Nat) : Bool :=
  match n with
  | .mk (.tile t) _ _ => t.id == id
  | _ => false

/-- DesktopManager.removeId. On a populated container, container children are
recursively cleaned first; then a tile child matching the identifier is
excised by returning the other (already cleaned) child. A matching tile at
the current node has its payload replaced by an empty Horizontal container.
Anything else is returned unchanged. -/
def removeId (tree : Node) (id : Nat) : Node :=
  match tree with
  | .mk (.container c) (some l) (some r) =>
    let l2 := if isContainerN l then removeId l id else l
    let r2 := if isContainerN r then removeId r id else r
    if isTileId l2 id then r2
    else if isTileId r2 id then l2
    else .mk (.container c) (some l2) (some r2)
  | .mk (.tile t) l r =>
    if t.id == id then .mk (.container ⟨.Horizontal, none⟩) l r
    else .mk (.tile t) l r
  | t => t

/-- Window as seen by the fit walk: identifier plus current frame rectangle
(get_frame_rect). -/
structure Window where
  id : Nat
  frame : Rectangle
deriving DecidableEq

/-- Frame produced by DesktopManager.moveResize: position shifted inward by
the spacing, size reduced by twice the spacing. -/
def shrinkBySpacing (r : Rectangle) (spacing : ℚ) : Rectangle :=
  ⟨r.x + spacing, r.y + spacing, r.width - spacing * 2, r.height - spacing * 2⟩

/-- DesktopManager.fit: skip when the frame already equals the target
rectangle, otherwise move and resize (the easing animation has no effect on
the final frame). The boolean reports whether a move actually happened. -/
def fitWindow (w : Window) (target : Rectangle) (spacing : ℚ) : Window × Bool :=
  if w.frame = target then (w, false)
  else ({ w with frame := shrinkBySpacing target spacing }, true)

/-- Lookup of windows.find combined with the fit applied to the found window;
none models the crash on a failed lookup. Only the first window with the
identifier is touched, as with Array.prototype.find. -/
def applyFit (ws : List Window) (id : Nat) (target : Rectangle) (spacing : ℚ) :
    Option (List Window × Bool) :=
  match ws with
  | [] => none
  | w :: rest =>
    if w.id = id then
      let fr := fitWindow w target spacing
      some (fr.1 :: rest, fr.2)
    else
      match applyFit rest id target spacing with
      | none => none
      | some (rest2, b) => some (w :: rest2, b)

/-- Errors of the fit walk: a tile whose window lookup fails (unchecked
non-null assertion in the source, a crash), or a node shape the walk does not
handle (explicit throw in the source). -/
inductive FitError where
  | danglingId (id : Nat)
  | corruptTree
deriving DecidableEq

/-- DesktopManager.fitTree. An empty container is a no-op; a tile fits its
window to the whole area; a populated container computes child rectangles
(the source inlines the childAreas lines here) and walks both children in
order (the source special-cases tile children inline, which coincides with
the recursive call on a tile node); any other shape throws. The returned
number counts the windows actually moved (fits not skipped). -/
def fitTree (tree : Node) (area : Rectangle) (ws : List Window) (spacing : ℚ) :
    Except FitError (List Window × Nat) :=
  match tree with
  | .mk (.container c) none none =>
    let _ := c
    .ok (ws, 0)
  | .mk (.tile t) _ _ =>
    match applyFit ws t.id area spacing with
    | none => .error (.danglingId t.id)
    | some (ws2, applied) => .ok (ws2, if applied then 1 else 0)
  | .mk (.container c) (some l) (some r) =>
    let areas := childAreas area c
    match fitTree l areas.1 ws spacing with
    | .error e => .error e
    | .ok (ws1, n1) =>
      match fitTree r areas.2 ws1 spacing with
      | .error e => .error e
      | .ok (ws2, n2) => .ok (ws2, n1 + n2)
  | _ => .error .corruptTree

/-- Identifiers of the Tile payloads of a tree, in in-order (left to right)
sequence. -/
def tileIds : Node → List Nat
  | .mk d l r =>
    (match l with
     | some x => tileIds x
     | none => []) ++
    (match d with
     | .tile t => [t.id]
     | .container _ => []) ++
    (match r with
     | some x => tileIds x
     | none => [])

/-- Well-formedness below the root: a tile payload has no children, a
container payload has both children; the empty container is not allowed. -/
def wfStrict : Node → Bool
  | .mk (.tile _) none none => true
  | .mk (.container _) (some l) (some r) => wfStrict l && wfStrict r
  | _ => false

/-- Validity per the data-model invariants of the spec: as wfStrict, except
that the root alone may be an empty container. -/
def wf (t : Node) : Bool :=
  match t with
  | .mk (.container _) none none => true
  | _ => wfStrict t

/-- Weaker shape predicate needed by the fit walk: tiles have no children and
containers have both children or none (empty containers allowed anywhere). -/
def wfLoose : Node → Bool
  | .mk (.tile _) none none => true
  | .mk (.container _) none none => true
  | .mk (.container _) (some l) (some r) => wfLoose l && wfLoose r
  | _ => false

/-- Rectangle that the fit walk assigns to the tile with the given
identifier, if any: a tile receives the whole area, a populated container
delegates to the child areas, left first. -/
def assignRect (tree : Node) (area : Rectangle) (i : Nat) : Option Rectangle :=
  match tree with
  | .mk (.tile t) _ _ => if t.id = i then some area else none
  | .mk (.container c) (some l) (some r) =>
    let areas := childAreas area c
    match assignRect l areas.1 i with
    | some r2 => some r2
    | none => assignRect r areas.2 i
  | _ => none

/-- Effect of one fit pass on a single window: if the walk assigns a
rectangle to its identifier, the window is fitted to it, else untouched. -/
def updFn (tree : Node) (area : Rectangle) (spacing : ℚ) (w : Window) : Window :=
  match assignRect tree area w.id with
  | some r => (fitWindow w r spacing).1
  | none => w

/-- Point condition under which an insertion is single-branched: the point is
inside the area and, at every populated container along its path, inside
exactly one of the two child rectangles (never on a shared boundary). -/
def goodPoint (tree : Node) (point : Point) (area : Rectangle) : Bool :=
  pointInRectangle point area &&
  match tree with
  | .mk (.container c) (some l) (some r) =>
    let s := splitArea area (some c)
    (pointInRectangle point s.1 != pointInRectangle point s.2.1) &&
    (if pointInRectangle point s.1 then goodPoint l point s.1
     else goodPoint r point s.2.1)
  | _ => true

/-- Attributes of a live window consulted by the eligibility filter in
App.initTree: minimized flag, current monitor, whether the frame type is
NORMAL, and whether the title matches the TitleBlacklist patterns (the regex
test is abstracted as a boolean attribute). -/
structure WinInfo where
  id : Nat
  minimized : Bool
  monitor : Nat
  frameNormal : Bool
  titleBlacklisted : Bool
deriving DecidableEq

/-- Eligibility filter of App.initTree (the same filter appears in
DesktopManager.autotile). -/
def eligible (monitorIdx : Nat) (w : WinInfo) : Bool :=
  !(w.minimized || w.monitor != monitorIdx || !w.frameNormal || w.titleBlacklisted)

/-- Node record in the arena model of App.initTree. App.initTree mutates
nodes shared between array slots, so nodes are addressed by index into an
arena and children are stored as optional indices. -/
structure NodeObj where
  data : NodeData
  left : Option Nat
  right : Option Nat
deriving DecidableEq

instance : Inhabited NodeObj := ⟨⟨.container ⟨.Horizontal, none⟩, none, none⟩⟩

/-- Arena of nodes for App.initTree; a node identifier is a list index. -/
abbrev Arena := List NodeObj

/-- Body of the per-window loop in App.initTree: on a container without a
right child, occupy it with a tile for the window; on a container with a
right child, descend into the right child (the window of this iteration is
not placed); on a tile, split it into a container whose orientation is
Horizontal exactly when the insertion index is even and the work area is
wider than tall, with the old tile on the left and the new window's tile on
the right, and continue at the right child. -/
def initStep (ar : Arena) (root : Nat) (w : WinInfo) (index : Nat)
    (wa : Rectangle) : Arena × Nat :=
  let node := ar.getD root default
  match node.data with
  | .container _ =>
    match node.right with
    | none => (ar.set root { node with data := .tile ⟨w.id, false⟩ }, root)
    | some rid => (ar, rid)
  | .tile t =>
    let lId := ar.length
    let rId := ar.length + 1
    let orient : Split :=
      if index % 2 == 0 && decide (wa.width > wa.height) then .Horizontal else .Vertical
    let ar2 := ar ++ [⟨.tile ⟨t.id, false⟩, none, none⟩, ⟨.tile ⟨w.id, false⟩, none, none⟩]
    (ar2.set root ⟨.container ⟨orient, none⟩, some lId, some rId⟩, rId)

/-- The per-window loop of App.initTree over one filtered window list. -/
def initInsertLoop (ar : Arena) (root : Nat) (ws : List WinInfo) (index : Nat)
    (wa : Rectangle) : Arena :=
  match ws with
  | [] => ar
  | w :: rest =>
    let st := initStep ar root w index wa
    initInsertLoop st.1 st.2 rest (index + 1) wa

/-- App.initTree. The slot table is built as in the source: one fresh empty
container node per workspace, and Array.fill places that same node in every
monitor slot of the workspace row. Then, for each monitor and workspace, the
eligible windows are inserted starting from the slot's node. The autotile
call after each slot only moves windows and does not change the tree, so it
is not part of the tree model. Returns the slot table of node identifiers
(indexed slots[workspace][monitor]) and the final arena. -/
def initTree (workspaceCount monitorCount : Nat) (winList : Nat → List WinInfo)
    (workAreaOf : Nat → Rectangle) : List (List Nat) × Arena :=
  let slots := (List.range workspaceCount).map (fun w => List.replicate monitorCount w)
  let arena0 : Arena := List.replicate workspaceCount ⟨.container ⟨.Horizontal, none⟩, none, none⟩
  let arena := (List.range monitorCount).foldl (fun ar m =>
    (List.range workspaceCount).foldl (fun ar2 w =>
      initInsertLoop ar2 w ((winList w).filter (eligible m)) 0 (workAreaOf m)) ar) arena0
  (slots, arena)

/-- Tile identifiers at the leaves of an arena-stored tree, left to right;
fuel bounds the traversal depth (any fuel at least the arena size is enough
for an acyclic arena). -/
def leavesFrom (ar : Arena) (fuel : Nat) (i : Nat) : List Nat :=
  match fuel with
  | 0 => []
  | fuel + 1 =>
    let node := ar.getD i default
    match node.data, node.left, node.right with
    | .tile t, _, _ => [t.id]
    | .container _, some l, some r => leavesFrom ar fuel l ++ leavesFrom ar fuel r
    | _, _, _ => []

/-! Helper lemmas. -/

/-- List.getD after List.set at the same in-range index returns the new value. -/
theorem getD_set_self (L : List NodeObj) (i : Nat) (a d : NodeObj)
    (h : i < L.length) : (L.set i a).getD i d = a := by
  induction L generalizing i with
  | nil => simp at h
  | cons x xs ih =>
    cases i with
    | zero => simp [List.getD]
    | succ j => simpa [List.getD] using ih j (by simpa using h)

/-- Reduction of pushTree when the containment test fails. -/
theorem pushTree_skip (t : Node) (p : Point) (nt : Tile) (area : Rectangle)
    (h : pointInRectangle p area = false) : pushTree t p nt area = some t := by
  unfold pushTree
  rw [h]
  rfl

/-- Reduction of pushTree on an empty container with the point inside. -/
theorem pushTree_empty (c : Container) (p : Point) (nt : Tile) (area : Rectangle)
    (hp : pointInRectangle p area = true) :
    pushTree (.mk (.container c) none none) p nt area = some (.mk (.tile nt) none none) := by
  unfold pushTree
  rw [hp]
  rfl

/-- Reduction of pushTree on a childless tile node with the point inside. -/
theorem pushTree_tile (t : Tile) (p : Point) (nt : Tile) (area : Rectangle)
    (hp : pointInRectangle p area = true) :
    pushTree (.mk (.tile t) none none) p nt area =
      if pointInRectangle p (splitArea area none).1 then
        some (.mk (.container (splitArea area none).2.2)
          (some (.mk (.tile nt) none none)) (some (.mk (.tile t) none none)))
      else
        some (.mk (.container (splitArea area none).2.2)
          (some (.mk (.tile t) none none)) (some (.mk (.tile nt) none none))) := by
  unfold pushTree
  rw [hp]
  rfl

/-- Reduction of pushTree on a populated container with the point inside. -/
theorem pushTree_container (c : Container) (l r : Node) (p : Point) (nt : Tile)
    (area : Rectangle) (hp : pointInRectangle p area = true) :
    pushTree (.mk (.container c) (some l) (some r)) p nt area =
      match pushTree l p nt (splitArea area (some c)).1,
            pushTree r p nt (splitArea area (some c)).2.1 with
      | some l2, some r2 => some (.mk (.container c) (some l2) (some r2))
      | _, _ => none := by
  conv_lhs => unfold pushTree
  rw [hp]
  rfl

/-- Strict well-formedness implies validity. -/
theorem wf_of_wfStrict (t : Node) (h : wfStrict t = true) : wf t = true := by
  unfold wf
  split
  · rfl
  · exact h

/-! Theorems for the claims. -/

/-- C6: the area-split helper, on parent rectangle 0,0,1000,600 with a
Vertical split and no constraint, yields halves 0,0,500,600 and
500,0,500,600; with constraint 300 it yields 0,0,300,600 and 300,0,700,600. -/
theorem splitArea_scenarios :
    ((splitArea ⟨0, 0, 1000, 600⟩ (some ⟨.Vertical, none⟩)).1 = ⟨0, 0, 500, 600⟩ ∧
     (splitArea ⟨0, 0, 1000, 600⟩ (some ⟨.Vertical, none⟩)).2.1 = ⟨500, 0, 500, 600⟩) ∧
    ((splitArea ⟨0, 0, 1000, 600⟩ (some ⟨.Vertical, some 300⟩)).1 = ⟨0, 0, 300, 600⟩ ∧
     (splitArea ⟨0, 0, 1000, 600⟩ (some ⟨.Vertical, some 300⟩)).2.1 = ⟨300, 0, 700, 600⟩) := by
  refine ⟨⟨?_, ?_⟩, ?_, ?_⟩ <;> norm_num [splitArea, childAreas, truthy]

/-- C7: the work-area calculator clamps each inset side to the interval from
0 to half the corresponding raw dimension (floored) and moves each edge of
the raw work area inward by the clamped inset minus the spacing; on the raw
area 0,0,1920,1080 with inset 20 on every side and spacing 10 it returns
10,10,1900,1060. -/
theorem workArea_spec :
    (∀ (raw : Rectangle) (inset : Inset) (spacing : ℚ),
      (workArea raw inset spacing).x =
        raw.x + (mathClamp inset.left 0 (⌊raw.width / 2⌋ : ℚ) - spacing) ∧
      (workArea raw inset spacing).y =
        raw.y + (mathClamp inset.top 0 (⌊raw.height / 2⌋ : ℚ) - spacing) ∧
      (workArea raw inset spacing).x + (workArea raw inset spacing).width =
        raw.x + raw.width - (mathClamp inset.right 0 (⌊raw.width / 2⌋ : ℚ) - spacing) ∧
      (workArea raw inset spacing).y + (workArea raw inset spacing).height =
        raw.y + raw.height - (mathClamp inset.bottom 0 (⌊raw.height / 2⌋ : ℚ) - spacing)) ∧
    (∀ (v hi : ℚ), 0 ≤ hi → 0 ≤ mathClamp v 0 hi ∧ mathClamp v 0 hi ≤ hi) ∧
    workArea ⟨0, 0, 1920, 1080⟩ ⟨20, 20, 20, 20⟩ 10 = ⟨10, 10, 1900, 1060⟩ := by
  refine ⟨fun raw inset spacing => ⟨rfl, rfl, ?_, ?_⟩, fun v hi h => ⟨?_, ?_⟩, ?_⟩
  · simp only [workArea]; ring
  · simp only [workArea]; ring
  · simp only [mathClamp, le_min_iff, le_max_iff]
    exact ⟨Or.inr le_rfl, h⟩
  · exact min_le_right _ _
  · norm_num [workArea, mathClamp]

/-- C7 witness: the clamp-bounds part of workArea_spec at concrete inputs. -/
theorem workArea_spec_witness :
    0 ≤ mathClamp 700 0 540 ∧ mathClamp 700 0 540 ≤ (540 : ℚ) :=
  workArea_spec.2.1 700 540 (by norm_num)

/-- C8: for a point whose containment test against the work area fails (the
test uses closed boundaries, so failure means strictly outside), pushTree
returns the tree unchanged and does not fail. -/
theorem pushTree_outside_noop (t : Node) (p : Point) (nt : Tile) (area : Rectangle)
    (h : pointInRectangle p area = false) : pushTree t p nt area = some t := by
  unfold pushTree
  rw [h]
  rfl

/-- C8 witness: pushTree_outside_noop at a concrete tree and outside point. -/
theorem pushTree_outside_noop_witness :
    pushTree (.mk (.container ⟨.Horizontal, none⟩) none none) ⟨-1, -1⟩ ⟨1, false⟩
      ⟨0, 0, 100, 100⟩ = some (.mk (.container ⟨.Horizontal, none⟩) none none) :=
  pushTree_outside_noop _ _ _ _ (by norm_num [pointInRectangle])

/-- C10: a constraint equal to 0 is falsy in the source's truthiness test and
therefore behaves exactly like an absent constraint: the child-area
computation, the area-split helper, and the fit walk all bisect the parent
dimension evenly. -/
theorem constraint_zero_as_absent :
    (∀ (area : Rectangle) (sp : Split),
      childAreas area ⟨sp, some 0⟩ = childAreas area ⟨sp, none⟩) ∧
    (∀ (area : Rectangle) (sp : Split),
      (splitArea area (some ⟨sp, some 0⟩)).1 = (splitArea area (some ⟨sp, none⟩)).1 ∧
      (splitArea area (some ⟨sp, some 0⟩)).2.1 = (splitArea area (some ⟨sp, none⟩)).2.1) ∧
    (∀ (area : Rectangle),
      (childAreas area ⟨.Vertical, some 0⟩).1.width = area.width / 2 ∧
      (childAreas area ⟨.Vertical, some 0⟩).2.width = area.width / 2 ∧
      (childAreas area ⟨.Horizontal, some 0⟩).1.height = area.height / 2 ∧
      (childAreas area ⟨.Horizontal, some 0⟩).2.height = area.height / 2) ∧
    (∀ (sp : Split) (l r : Option Node) (area : Rectangle) (ws : List Window) (spacing : ℚ),
      fitTree (.mk (.container ⟨sp, some 0⟩) l r) area ws spacing =
      fitTree (.mk (.container ⟨sp, none⟩) l r) area ws spacing) := by
  have hca : ∀ (area : Rectangle) (sp : Split),
      childAreas area ⟨sp, some 0⟩ = childAreas area ⟨sp, none⟩ := by
    intro area sp
    simp [childAreas, truthy]
  refine ⟨hca, fun area sp => ⟨?_, ?_⟩, fun area => ⟨?_, ?_, ?_, ?_⟩, fun sp l r area ws spacing => ?_⟩
  · simp [splitArea, hca]
  · simp [splitArea, hca]
  · simp [hca, childAreas, truthy]
  · simp [hca, childAreas, truthy]
  · simp [hca, childAreas, truthy]
  · simp [hca, childAreas, truthy]
  · cases l with
    | none =>
      cases r with
      | none => rfl
      | some rn => rfl
    | some ln =>
      cases r with
      | none => rfl
      | some rn => simp [fitTree, hca]

/-- C5 counterexample: during initial tree construction, the container
created at insertion index 1 (odd) with a work area 600 wide and 1000 tall
(not wider than tall) has split Vertical; the claim predicts Horizontal for
this input. -/
theorem initSplit_odd_counterexample :
    ((initStep [⟨.tile ⟨1, false⟩, none, none⟩] 0 ⟨2, false, 0, true, false⟩ 1
        ⟨0, 0, 600, 1000⟩).1.getD 0 default).data = .container ⟨.Vertical, none⟩ := by
  decide

/-- C5 amended: when the initial-construction loop splits a tile at insertion
index i, the new container is Horizontal exactly when i is even and the work
area is wider than tall; in particular at every odd index it is Vertical,
whatever the aspect ratio. -/
theorem initStep_orientation (ar : Arena) (root : Nat) (w : WinInfo) (index : Nat)
    (wa : Rectangle) (t : Tile) (hroot : root < ar.length)
    (hdata : (ar.getD root default).data = .tile t) :
    ((initStep ar root w index wa).1.getD root default).data =
      .container ⟨if index % 2 == 0 && decide (wa.width > wa.height) then .Horizontal
                  else .Vertical, none⟩ ∧
    (index % 2 = 1 →
      ((initStep ar root w index wa).1.getD root default).data =
        .container ⟨.Vertical, none⟩) := by
  have hroot2 : root < (ar ++ [(⟨.tile ⟨t.id, false⟩, none, none⟩ : NodeObj),
      ⟨.tile ⟨w.id, false⟩, none, none⟩]).length := by
    rw [List.length_append]
    omega
  have hmain : ((initStep ar root w index wa).1.getD root default).data =
      .container ⟨if index % 2 == 0 && decide (wa.width > wa.height) then .Horizontal
                  else .Vertical, none⟩ := by
    cases hob : ar.getD root default with
    | mk d lc rc =>
      rw [hob] at hdata
      have hd : d = .tile t := hdata
      subst hd
      simp only [initStep, hob]
      rw [getD_set_self _ _ _ _ hroot2]
  refine ⟨hmain, fun hodd => ?_⟩
  rw [hmain, hodd]
  simp

/-- C5 amended witness: initStep_orientation at a concrete arena, even index
and wide work area. -/
theorem initStep_orientation_witness :
    ((initStep [⟨.tile ⟨1, false⟩, none, none⟩] 0 ⟨2, false, 0, true, false⟩ 2
        ⟨0, 0, 1920, 1080⟩).1.getD 0 default).data =
      .container ⟨if 2 % 2 == 0 && decide ((1920 : ℚ) > 1080) then .Horizontal
                  else .Vertical, none⟩ ∧
    (2 % 2 = 1 →
      ((initStep [⟨.tile ⟨1, false⟩, none, none⟩] 0 ⟨2, false, 0, true, false⟩ 2
          ⟨0, 0, 1920, 1080⟩).1.getD 0 default).data = .container ⟨.Vertical, none⟩) :=
  initStep_orientation _ _ _ _ _ ⟨1, false⟩ (by decide) (by decide)

/-- C1: evaluation of App.initTree at one workspace with two monitors, one
eligible window per monitor. Array.fill places the same node in both monitor
slots of the workspace (slot table equals a row of two identical node
identifiers), and after construction that single shared tree has the windows
of both monitors as its leaves, instead of each slot holding its own tree
with exactly its own monitor's windows. -/
theorem initTree_shared_row_bug :
    (initTree 1 2 (fun _ => [⟨1, false, 0, true, false⟩, ⟨2, false, 1, true, false⟩])
      (fun _ => ⟨0, 0, 1920, 1080⟩)).1 = [[0, 0]] ∧
    leavesFrom (initTree 1 2 (fun _ => [⟨1, false, 0, true, false⟩, ⟨2, false, 1, true, false⟩])
      (fun _ => ⟨0, 0, 1920, 1080⟩)).2 3 0 = [1, 2] ∧
    List.filter (eligible 0) [⟨1, false, 0, true, false⟩, ⟨2, false, 1, true, false⟩] =
      [⟨1, false, 0, true, false⟩] ∧
    List.filter (eligible 1) [⟨1, false, 0, true, false⟩, ⟨2, false, 1, true, false⟩] =
      [⟨2, false, 1, true, false⟩] := by
  refine ⟨by decide, by decide, by decide, by decide⟩

/-- C2 amended: on a valid tree, pushing a fresh tile at a point that is
inside the work area and, at every populated container it reaches, inside
exactly one of the two child rectangles (in particular, not exactly on an
internal split boundary), succeeds, increases the number of tile leaves by
exactly one, and keeps every previously present tile identifier. -/
theorem pushTree_insert_spec : ∀ (t : Node) (p : Point) (nt : Tile) (area : Rectangle),
    wf t = true → goodPoint t p area = true →
    ∃ t2, pushTree t p nt area = some t2 ∧
      (tileIds t2).length = (tileIds t).length + 1 ∧
      ∀ i ∈ tileIds t, i ∈ tileIds t2
  | .mk (.container c) none none, p, nt, area, _, hgp => by
    have hp : pointInRectangle p area = true := by
      simp only [goodPoint, Bool.and_eq_true] at hgp
      exact hgp.1
    exact ⟨.mk (.tile nt) none none, pushTree_empty c p nt area hp,
      by simp [tileIds], by simp [tileIds]⟩
  | .mk (.tile tl) none none, p, nt, area, _, hgp => by
    have hp : pointInRectangle p area = true := by
      simp only [goodPoint, Bool.and_eq_true] at hgp
      exact hgp.1
    cases hb : pointInRectangle p (splitArea area none).1 with
    | true =>
      refine ⟨.mk (.container (splitArea area none).2.2)
        (some (.mk (.tile nt) none none)) (some (.mk (.tile tl) none none)), ?_,
        by simp [tileIds], by simp [tileIds]⟩
      rw [pushTree_tile tl p nt area hp, if_pos hb]
    | false =>
      refine ⟨.mk (.container (splitArea area none).2.2)
        (some (.mk (.tile tl) none none)) (some (.mk (.tile nt) none none)), ?_,
        by simp [tileIds], by simp [tileIds]⟩
      rw [pushTree_tile tl p nt area hp, if_neg (by simp [hb])]
  | .mk (.tile tl) (some x) r2, p, nt, area, hwf, _ => by
    simp [wf, wfStrict] at hwf
  | .mk (.tile tl) none (some y), p, nt, area, hwf, _ => by
    simp [wf, wfStrict] at hwf
  | .mk (.container c) (some l) none, p, nt, area, hwf, _ => by
    simp [wf, wfStrict] at hwf
  | .mk (.container c) none (some r), p, nt, area, hwf, _ => by
    simp [wf, wfStrict] at hwf
  | .mk (.container c) (some l) (some r), p, nt, area, hwf, hgp => by
    have hwS : wfStrict (.mk (.container c) (some l) (some r)) = true := hwf
    rw [show wfStrict (.mk (.container c) (some l) (some r)) = (wfStrict l && wfStrict r)
        from rfl, Bool.and_eq_true] at hwS
    simp only [goodPoint, Bool.and_eq_true] at hgp
    obtain ⟨hp, hne, hcond⟩ := hgp
    cases hb : pointInRectangle p (splitArea area (some c)).1 with
    | true =>
      have h2 : pointInRectangle p (splitArea area (some c)).2.1 = false := by
        cases hx : pointInRectangle p (splitArea area (some c)).2.1 with
        | false => rfl
        | true => rw [hb, hx] at hne; simp at hne
      rw [hb] at hcond
      simp only [if_true] at hcond
      obtain ⟨l2, hl2, hlen, hmem⟩ :=
        pushTree_insert_spec l p nt (splitArea area (some c)).1 (wf_of_wfStrict l hwS.1) hcond
      refine ⟨.mk (.container c) (some l2) (some r), ?_, ?_, ?_⟩
      · rw [pushTree_container c l r p nt area hp, hl2, pushTree_skip r p nt _ h2]
      · simp only [tileIds, List.length_append]
        omega
      · intro i hi
        simp only [tileIds, List.mem_append] at hi ⊢
        rcases hi with (hi | hi) | hi
        · exact Or.inl (Or.inl (hmem i hi))
        · simp at hi
        · exact Or.inr hi
    | false =>
      have h2 : pointInRectangle p (splitArea area (some c)).2.1 = true := by
        cases hx : pointInRectangle p (splitArea area (some c)).2.1 with
        | true => rfl
        | false => rw [hb, hx] at hne; simp at hne
      rw [hb] at hcond
      simp only [Bool.false_eq_true, if_false] at hcond
      obtain ⟨r2, hr2, hlen, hmem⟩ :=
        pushTree_insert_spec r p nt (splitArea area (some c)).2.1 (wf_of_wfStrict r hwS.2) hcond
      refine ⟨.mk (.container c) (some l) (some r2), ?_, ?_, ?_⟩
      · rw [pushTree_container c l r p nt area hp, hr2, pushTree_skip l p nt _ hb]
      · simp only [tileIds, List.length_append]
        omega
      · intro i hi
        simp only [tileIds, List.mem_append] at hi ⊢
        rcases hi with (hi | hi) | hi
        · exact Or.inl (Or.inl hi)
        · simp at hi
        · exact Or.inr (hmem i hi)

/-- C2 witness: pushTree_insert_spec on a single-tile tree with an interior
point. -/
theorem pushTree_insert_spec_witness :
    ∃ t2, pushTree (.mk (.tile ⟨1, false⟩) none none) ⟨10, 10⟩ ⟨2, false⟩
        ⟨0, 0, 100, 100⟩ = some t2 ∧
      (tileIds t2).length = (tileIds (.mk (.tile ⟨1, false⟩) none none : Node)).length + 1 ∧
      ∀ i ∈ tileIds (.mk (.tile ⟨1, false⟩) none none : Node), i ∈ tileIds t2 :=
  pushTree_insert_spec _ _ _ _ (by decide) (by norm_num [goodPoint, pointInRectangle])

/-- C2 counterexample: on the valid two-tile tree split Vertically over the
work area 0,0,100,100, the point 50,10 lies exactly on the internal split
boundary (inside the work area), and pushTree inserts the fresh tile twice:
the tile-leaf count goes from 2 to 4, not to 3 as the claim states. -/
theorem pushTree_boundary_counterexample :
    (pushTree (.mk (.container ⟨.Vertical, none⟩)
        (some (.mk (.tile ⟨1, false⟩) none none))
        (some (.mk (.tile ⟨2, false⟩) none none))) ⟨50, 10⟩ ⟨3, false⟩
        ⟨0, 0, 100, 100⟩).map (fun u => (tileIds u).length) = some 4 ∧
    (tileIds (.mk (.container ⟨.Vertical, none⟩)
        (some (.mk (.tile ⟨1, false⟩) none none))
        (some (.mk (.tile ⟨2, false⟩) none none)) : Node)).length = 2 ∧
    wf (.mk (.container ⟨.Vertical, none⟩)
        (some (.mk (.tile ⟨1, false⟩) none none))
        (some (.mk (.tile ⟨2, false⟩) none none)) : Node) = true ∧
    pointInRectangle ⟨50, 10⟩ ⟨0, 0, 100, 100⟩ = true := by
  refine ⟨?_, by decide, by decide, ?_⟩
  · norm_num [pushTree, pointInRectangle, splitArea, childAreas, truthy, tileIds]
  · norm_num [pointInRectangle]

/-- Reduction of removeId on a populated container. -/
theorem removeId_container (c : Container) (l r : Node) (id : Nat) :
    removeId (.mk (.container c) (some l) (some r)) id =
      if isTileId (if isContainerN l then removeId l id else l) id then
        (if isContainerN r then removeId r id else r)
      else if isTileId (if isContainerN r then removeId r id else r) id then
        (if isContainerN l then removeId l id else l)
      else .mk (.container c)
        (some (if isContainerN l then removeId l id else l))
        (some (if isContainerN r then removeId r id else r)) := by
  conv_lhs => unfold removeId

/-- Unfolding of tileIds on an arbitrary node. -/
theorem tileIds_node (d : NodeData) (l r : Option Node) :
    tileIds (.mk d l r) =
      (match l with
       | some x => tileIds x
       | none => []) ++
      (match d with
       | .tile t => [t.id]
       | .container _ => []) ++
      (match r with
       | some x => tileIds x
       | none => []) := by
  rw [tileIds.eq_def]

/-- A node that passes the tile-identifier test has that identifier among its
tile identifiers. -/
theorem isTileId_mem (n : Node) (id : Nat) (h : isTileId n id = true) :
    id ∈ tileIds n := by
  cases n with
  | mk d l r =>
    cases d with
    | tile t =>
      have ht : t.id = id := by simpa [isTileId] using h
      rw [tileIds_node]
      simp [ht]
    | container c => simp [isTileId] at h

/-- Shape of a strictly well-formed node. -/
theorem wfStrict_shape : ∀ (n : Node), wfStrict n = true →
    (∃ t, n = .mk (.tile t) none none) ∨
    (∃ c l r, n = .mk (.container c) (some l) (some r))
  | .mk (.tile t) none none, _ => Or.inl ⟨t, rfl⟩
  | .mk (.tile t) (some x) r, hw => by simp [wfStrict] at hw
  | .mk (.tile t) none (some y), hw => by simp [wfStrict] at hw
  | .mk (.container c) none none, hw => by simp [wfStrict] at hw
  | .mk (.container c) (some l) none, hw => by simp [wfStrict] at hw
  | .mk (.container c) none (some r), hw => by simp [wfStrict] at hw
  | .mk (.container c) (some l) (some r), _ => Or.inr ⟨c, l, r, rfl⟩

/-- Both children of a strictly well-formed populated container are strictly
well-formed. -/
theorem wfStrict_children (c : Container) (l r : Node)
    (h : wfStrict (.mk (.container c) (some l) (some r)) = true) :
    wfStrict l = true ∧ wfStrict r = true := by
  have h2 : (wfStrict l && wfStrict r) = true := h
  simpa using h2

/-- Tile identifiers of a populated container, unfolded. -/
theorem tileIds_container (c : Container) (l r : Node) :
    tileIds (.mk (.container c) (some l) (some r)) = tileIds l ++ tileIds r := by
  simp [tileIds]

/-- Removal of an identifier that is absent leaves the tree unchanged. -/
theorem removeId_not_mem : ∀ (t : Node) (id : Nat), id ∉ tileIds t → removeId t id = t
  | .mk (.tile t) l r, id, h => by
    have ht : (t.id == id) = false := by
      have : t.id ≠ id := by
        intro he
        exact h (by rw [tileIds_node]; simp [he])
      simpa using this
    simp [removeId, ht]
  | .mk (.container c) none none, id, _ => by simp [removeId]
  | .mk (.container c) (some l) none, id, _ => by simp [removeId]
  | .mk (.container c) none (some r), id, _ => by simp [removeId]
  | .mk (.container c) (some l) (some r), id, h => by
    have hl : id ∉ tileIds l := by
      intro hx
      exact h (by rw [tileIds_container]; exact List.mem_append.mpr (Or.inl hx))
    have hr : id ∉ tileIds r := by
      intro hx
      exact h (by rw [tileIds_container]; exact List.mem_append.mpr (Or.inr hx))
    have hl2 : (if isContainerN l then removeId l id else l) = l := by
      cases hcl : isContainerN l with
      | true => simp only [hcl, if_true]; exact removeId_not_mem l id hl
      | false => simp [hcl]
    have hr2 : (if isContainerN r then removeId r id else r) = r := by
      cases hcr : isContainerN r with
      | true => simp only [hcr, if_true]; exact removeId_not_mem r id hr
      | false => simp [hcr]
    have htl : isTileId l id = false := by
      cases hx : isTileId l id with
      | false => rfl
      | true => exact absurd (isTileId_mem l id hx) hl
    have htr : isTileId r id = false := by
      cases hx : isTileId r id with
      | false => rfl
      | true => exact absurd (isTileId_mem r id hx) hr
    rw [removeId_container, hl2, hr2, htl, htr]
    simp

/-- Removal rewrites the in-order tile identifier list to the list with the
first occurrence of the identifier erased (for strictly well-formed trees
with no duplicate identifiers). -/
theorem removeId_tileIds : ∀ (t : Node) (id : Nat), wfStrict t = true →
    (tileIds t).Nodup → tileIds (removeId t id) = (tileIds t).erase id
  | .mk (.tile t) none none, id, _, _ => by
    cases heq : (t.id == id) with
    | true =>
      have ht : t.id = id := by simpa using heq
      simp [removeId, heq, tileIds, ht]
    | false =>
      have ht : ¬(t.id == id) = true := by simp [heq]
      simp only [removeId, heq, Bool.false_eq_true, if_false]
      simp [tileIds, List.erase_cons, heq]
  | .mk (.tile t) (some x) r, id, hw, _ => by simp [wfStrict] at hw
  | .mk (.tile t) none (some y), id, hw, _ => by simp [wfStrict] at hw
  | .mk (.container c) none none, id, hw, _ => by simp [wfStrict] at hw
  | .mk (.container c) (some l) none, id, hw, _ => by simp [wfStrict] at hw
  | .mk (.container c) none (some r), id, hw, _ => by simp [wfStrict] at hw
  | .mk (.container c) (some l) (some r), id, hw, hnd => by
    obtain ⟨hwl, hwr⟩ := wfStrict_children c l r hw
    rw [tileIds_container] at hnd
    have hndl : (tileIds l).Nodup := (List.nodup_append.mp hnd).1
    have hndr : (tileIds r).Nodup := (List.nodup_append.mp hnd).2.1
    have hdisj : ∀ a ∈ tileIds l, a ∉ tileIds r := (List.nodup_append.mp hnd).2.2
    have hAl : isTileId (if isContainerN l then removeId l id else l) id = true →
        tileIds l = [id] ∧ (if isContainerN l then removeId l id else l) = l := by
      intro hx
      cases hcl : isContainerN l with
      | true =>
        simp only [hcl, if_true] at hx
        have hmem := isTileId_mem _ id hx
        rw [removeId_tileIds l id hwl hndl] at hmem
        exact absurd (hndl.mem_erase_iff.mp hmem).1 (by simp)
      | false =>
        simp only [hcl, Bool.false_eq_true, if_false] at hx
        rcases wfStrict_shape l hwl with ⟨tl, rfl⟩ | ⟨cc, ll, rr, rfl⟩
        · have ht : tl.id = id := by simpa [isTileId] using hx
          exact ⟨by rw [tileIds_node]; simp [ht], by simp [isContainerN]⟩
        · simp [isContainerN] at hcl
    have hBl : isTileId (if isContainerN l then removeId l id else l) id = false →
        tileIds (if isContainerN l then removeId l id else l) = (tileIds l).erase id := by
      intro hx
      cases hcl : isContainerN l with
      | true =>
        simp only [hcl, if_true]
        exact removeId_tileIds l id hwl hndl
      | false =>
        simp only [hcl, Bool.false_eq_true, if_false] at hx ⊢
        rcases wfStrict_shape l hwl with ⟨tl, rfl⟩ | ⟨cc, ll, rr, rfl⟩
        · have ht : tl.id ≠ id := by simpa [isTileId] using hx
          rw [tileIds_node]
          simp [List.erase_cons, ht]
        · simp [isContainerN] at hcl
    have hAr : isTileId (if isContainerN r then removeId r id else r) id = true →
        tileIds r = [id] ∧ (if isContainerN r then removeId r id else r) = r := by
      intro hx
      cases hcr : isContainerN r with
      | true =>
        simp only [hcr, if_true] at hx
        have hmem := isTileId_mem _ id hx
        rw [removeId_tileIds r id hwr hndr] at hmem
        exact absurd (hndr.mem_erase_iff.mp hmem).1 (by simp)
      | false =>
        simp only [hcr, Bool.false_eq_true, if_false] at hx
        rcases wfStrict_shape r hwr with ⟨tr, rfl⟩ | ⟨cc, ll, rr, rfl⟩
        · have ht : tr.id = id := by simpa [isTileId] using hx
          exact ⟨by rw [tileIds_node]; simp [ht], by simp [isContainerN]⟩
        · simp [isContainerN] at hcr
    have hBr : isTileId (if isContainerN r then removeId r id else r) id = false →
        tileIds (if isContainerN r then removeId r id else r) = (tileIds r).erase id := by
      intro hx
      cases hcr : isContainerN r with
      | true =>
        simp only [hcr, if_true]
        exact removeId_tileIds r id hwr hndr
      | false =>
        simp only [hcr, Bool.false_eq_true, if_false] at hx ⊢
        rcases wfStrict_shape r hwr with ⟨tr, rfl⟩ | ⟨cc, ll, rr, rfl⟩
        · have ht : tr.id ≠ id := by simpa [isTileId] using hx
          rw [tileIds_node]
          simp [List.erase_cons, ht]
        · simp [isContainerN] at hcr
    rw [removeId_container, tileIds_container]
    cases hL : isTileId (if isContainerN l then removeId l id else l) id with
    | true =>
      obtain ⟨hidl, _⟩ := hAl hL
      rw [if_pos rfl]
      have hnr : id ∉ tileIds r := hdisj id (by simp [hidl])
      have hR2 : (if isContainerN r then removeId r id else r) = r := by
        cases hcr : isContainerN r with
        | true => simp only [hcr, if_true]; exact removeId_not_mem r id hnr
        | false => simp only [hcr, Bool.false_eq_true, if_false]
      rw [hR2, hidl]
      simp
    | false =>
      have hBl2 := hBl hL
      rw [if_neg (by simp)]
      cases hR : isTileId (if isContainerN r then removeId r id else r) id with
      | true =>
        obtain ⟨hidr, _⟩ := hAr hR
        rw [if_pos rfl]
        have hnl : id ∉ tileIds l := fun hx => hdisj id hx (by simp [hidr])
        rw [hBl2, List.erase_of_not_mem hnl, hidr, List.erase_append_right _ hnl]
        simp
      | false =>
        have hBr2 := hBr hR
        rw [if_neg (by simp), tileIds_container, hBl2, hBr2]
        by_cases hml : id ∈ tileIds l
        · rw [List.erase_append_left _ hml, List.erase_of_not_mem (hdisj id hml)]
        · rw [List.erase_append_right _ hml, List.erase_of_not_mem hml]

/-- A strictly well-formed tree has at least one tile. -/
theorem tileIds_ne_nil : ∀ (t : Node), wfStrict t = true → tileIds t ≠ []
  | .mk (.tile t) none none, _ => by simp [tileIds]
  | .mk (.tile t) (some x) r, hw => by simp [wfStrict] at hw
  | .mk (.tile t) none (some y), hw => by simp [wfStrict] at hw
  | .mk (.container c) none none, hw => by simp [wfStrict] at hw
  | .mk (.container c) (some l) none, hw => by simp [wfStrict] at hw
  | .mk (.container c) none (some r), hw => by simp [wfStrict] at hw
  | .mk (.container c) (some l) (some r), hw => by
    obtain ⟨hwl, _⟩ := wfStrict_children c l r hw
    have h0 := tileIds_ne_nil l hwl
    rw [tileIds_container]
    intro h1
    exact h0 (List.append_eq_nil.mp h1).1

/-- A strictly well-formed tree whose identifier list is a singleton is a
single childless tile node. -/
theorem tileIds_singleton : ∀ (t : Node) (i : Nat), wfStrict t = true →
    tileIds t = [i] → ∃ b, t = .mk (.tile ⟨i, b⟩) none none
  | .mk (.tile t) none none, i, _, hid => by
    have ht : t.id = i := by simpa [tileIds] using hid
    exact ⟨t.isNew, by rw [← ht]⟩
  | .mk (.tile t) (some x) r, i, hw, _ => by simp [wfStrict] at hw
  | .mk (.tile t) none (some y), i, hw, _ => by simp [wfStrict] at hw
  | .mk (.container c) none none, i, hw, _ => by simp [wfStrict] at hw
  | .mk (.container c) (some l) none, i, hw, _ => by simp [wfStrict] at hw
  | .mk (.container c) none (some r), i, hw, _ => by simp [wfStrict] at hw
  | .mk (.container c) (some l) (some r), i, hw, hid => by
    exfalso
    obtain ⟨hwl, hwr⟩ := wfStrict_children c l r hw
    have hl := tileIds_ne_nil l hwl
    have hr := tileIds_ne_nil r hwr
    have hlen : (tileIds l).length + (tileIds r).length = 1 := by
      have := congrArg List.length hid
      rw [tileIds_container] at this
      simpa using this
    have h1 : 0 < (tileIds l).length := List.length_pos.mpr hl
    have h2 : 0 < (tileIds r).length := List.length_pos.mpr hr
    omega

/-- C3: on a valid tree with unique identifiers containing the identifier,
removeId yields a tree without that identifier whose tile-leaf count drops by
exactly one, and when the identifier was the sole tile the returned root is
the empty Horizontal container; on any tree not containing the identifier,
removeId returns the tree unchanged. -/
theorem removeId_spec :
    (∀ (t : Node) (id : Nat), wf t = true → (tileIds t).Nodup → id ∈ tileIds t →
      id ∉ tileIds (removeId t id) ∧
      (tileIds (removeId t id)).length + 1 = (tileIds t).length ∧
      (tileIds t = [id] → removeId t id = .mk (.container ⟨.Horizontal, none⟩) none none)) ∧
    (∀ (t : Node) (id : Nat), id ∉ tileIds t → removeId t id = t) := by
  constructor
  · intro t id hwf hnd hmem
    have hstrict : wfStrict t = true := by
      cases t with
      | mk d l r =>
        cases d with
        | container c =>
          cases l with
          | none =>
            cases r with
            | none => simp [tileIds] at hmem
            | some y => exact hwf
          | some x => exact hwf
        | tile t2 => exact hwf
    have herase := removeId_tileIds t id hstrict hnd
    refine ⟨?_, ?_, ?_⟩
    · rw [herase]
      intro hx
      exact absurd (hnd.mem_erase_iff.mp hx).1 (by simp)
    · rw [herase, List.length_erase_of_mem hmem]
      have hpos : 0 < (tileIds t).length := List.length_pos.mpr (by
        intro h0
        rw [h0] at hmem
        simp at hmem)
      omega
    · intro hsingle
      obtain ⟨b, rfl⟩ := tileIds_singleton t id hstrict hsingle
      simp [removeId]
  · exact removeId_not_mem

/-- C3 witness: removeId_spec on the two-tile Vertical tree, removing tile 1. -/
theorem removeId_spec_witness :
    1 ∉ tileIds (removeId (.mk (.container ⟨.Vertical, none⟩)
        (some (.mk (.tile ⟨1, false⟩) none none))
        (some (.mk (.tile ⟨2, false⟩) none none))) 1) ∧
    (tileIds (removeId (.mk (.container ⟨.Vertical, none⟩)
        (some (.mk (.tile ⟨1, false⟩) none none))
        (some (.mk (.tile ⟨2, false⟩) none none))) 1)).length + 1 =
      (tileIds (.mk (.container ⟨.Vertical, none⟩)
        (some (.mk (.tile ⟨1, false⟩) none none))
        (some (.mk (.tile ⟨2, false⟩) none none)) : Node)).length ∧
    (tileIds (.mk (.container ⟨.Vertical, none⟩)
        (some (.mk (.tile ⟨1, false⟩) none none))
        (some (.mk (.tile ⟨2, false⟩) none none)) : Node) = [1] →
      removeId (.mk (.container ⟨.Vertical, none⟩)
        (some (.mk (.tile ⟨1, false⟩) none none))
        (some (.mk (.tile ⟨2, false⟩) none none))) 1 =
        .mk (.container ⟨.Horizontal, none⟩) none none) :=
  removeId_spec.1 _ 1 (by decide) (by decide) (by decide)

/-- Mapping a function that fixes every member is the identity. -/
theorem map_fix {α : Type} (f : α → α) : ∀ (l : List α), (∀ x ∈ l, f x = x) → l.map f = l
  | [], _ => rfl
  | x :: xs, h => by
    rw [List.map_cons, h x (by simp), map_fix f xs (fun y hy => h y (by simp [hy]))]

/-- Fitting preserves the window identifier. -/
theorem fitWindow_id (w : Window) (r : Rectangle) (s : ℚ) :
    ((fitWindow w r s).1).id = w.id := by
  unfold fitWindow
  split
  · rfl
  · rfl

/-- Fitting a window twice to the same target gives the same window as
fitting it once. -/
theorem fitWindow_stable (w : Window) (r : Rectangle) (s : ℚ) :
    (fitWindow (fitWindow w r s).1 r s).1 = (fitWindow w r s).1 := by
  by_cases h : w.frame = r
  · simp [fitWindow, h]
  · have hinner : (fitWindow w r s).1 = ⟨w.id, shrinkBySpacing r s⟩ := by
      rw [fitWindow, if_neg h]
    rw [hinner]
    unfold fitWindow
    split
    · rfl
    · rfl

/-- With zero spacing, the frame after a fit equals the target rectangle. -/
theorem fitWindow_frame_zero (w : Window) (r : Rectangle) :
    ((fitWindow w r 0).1).frame = r := by
  by_cases h : w.frame = r
  · simp [fitWindow, h]
  · cases r with
    | mk a b cw ch => simp [fitWindow, h, shrinkBySpacing]

/-- The find-and-fit step preserves the identifier sequence. -/
theorem applyFit_ids : ∀ (ws : List Window) (id : Nat) (r : Rectangle) (s : ℚ)
    (ws2 : List Window) (b : Bool), applyFit ws id r s = some (ws2, b) →
    ws2.map Window.id = ws.map Window.id
  | [], id, r, s, ws2, b, h => by simp [applyFit] at h
  | w :: rest, id, r, s, ws2, b, h => by
    rw [applyFit] at h
    by_cases hw : w.id = id
    · rw [if_pos hw] at h
      simp only [Option.some.injEq, Prod.mk.injEq] at h
      rw [← h.1]
      simp [fitWindow_id]
    · rw [if_neg hw] at h
      cases hr : applyFit rest id r s with
      | none => rw [hr] at h; simp at h
      | some out =>
        cases out with
        | mk rest2 b2 =>
          rw [hr] at h
          simp only [Option.some.injEq, Prod.mk.injEq] at h
          rw [← h.1]
          simp [applyFit_ids rest id r s rest2 b2 hr]

/-- The find-and-fit step succeeds when a window with the identifier is in
the list. -/
theorem applyFit_total : ∀ (ws : List Window) (id : Nat) (r : Rectangle) (s : ℚ),
    (∃ w ∈ ws, w.id = id) → ∃ out, applyFit ws id r s = some out
  | [], id, r, s, h => by simp at h
  | w :: rest, id, r, s, h => by
    rw [applyFit]
    by_cases hw : w.id = id
    · rw [if_pos hw]
      exact ⟨_, rfl⟩
    · rw [if_neg hw]
      have hrest : ∃ w2 ∈ rest, w2.id = id := by
        obtain ⟨w2, hw2, hid⟩ := h
        rcases List.mem_cons.mp hw2 with rfl | hmem
        · exact absurd hid hw
        · exact ⟨w2, hmem, hid⟩
      obtain ⟨out, hout⟩ := applyFit_total rest id r s hrest
      cases out with
      | mk rest2 b2 =>
        rw [hout]
        exact ⟨_, rfl⟩

/-- With unique window identifiers, the find-and-fit step rewrites the list
pointwise: the windows carrying the identifier are fitted, the others are
untouched. -/
theorem applyFit_char : ∀ (ws : List Window) (id : Nat) (r : Rectangle) (s : ℚ)
    (ws2 : List Window) (b : Bool), (ws.map Window.id).Nodup →
    applyFit ws id r s = some (ws2, b) →
    ws2 = ws.map (fun w => if w.id = id then (fitWindow w r s).1 else w)
  | [], id, r, s, ws2, b, _, h => by simp [applyFit] at h
  | w :: rest, id, r, s, ws2, b, hnd, h => by
    rw [applyFit] at h
    have hndr : (rest.map Window.id).Nodup := (List.nodup_cons.mp hnd).2
    by_cases hw : w.id = id
    · rw [if_pos hw] at h
      simp only [Option.some.injEq, Prod.mk.injEq] at h
      have hrest : ∀ x ∈ rest, x.id ≠ id := by
        intro x hx he
        have : w.id ∈ rest.map Window.id := by
          rw [hw, ← he]
          exact List.mem_map.mpr ⟨x, hx, rfl⟩
        exact (List.nodup_cons.mp hnd).1 this
      rw [← h.1, List.map_cons, if_pos hw,
        map_fix _ rest (fun x hx => if_neg (hrest x hx))]
    · rw [if_neg hw] at h
      cases hr : applyFit rest id r s with
      | none => rw [hr] at h; simp at h
      | some out =>
        cases out with
        | mk rest2 b2 =>
          rw [hr] at h
          simp only [Option.some.injEq, Prod.mk.injEq] at h
          rw [← h.1, List.map_cons, if_neg hw,
            applyFit_char rest id r s rest2 b2 hndr hr]

/-- When every window carrying the identifier already has the target frame,
the find-and-fit step changes nothing and reports a skipped fit. -/
theorem applyFit_skip : ∀ (ws : List Window) (id : Nat) (r : Rectangle) (s : ℚ)
    (ws2 : List Window) (b : Bool), (∀ w ∈ ws, w.id = id → w.frame = r) →
    applyFit ws id r s = some (ws2, b) → ws2 = ws ∧ b = false
  | [], id, r, s, ws2, b, _, h => by simp [applyFit] at h
  | w :: rest, id, r, s, ws2, b, hfr, h => by
    rw [applyFit] at h
    by_cases hw : w.id = id
    · rw [if_pos hw] at h
      have hskip : fitWindow w r s = (w, false) := by
        rw [fitWindow, if_pos (hfr w (by simp) hw)]
      rw [hskip] at h
      simp only [Option.some.injEq, Prod.mk.injEq] at h
      exact ⟨h.1.symm, h.2.symm⟩
    · rw [if_neg hw] at h
      cases hr : applyFit rest id r s with
      | none => rw [hr] at h; simp at h
      | some out =>
        cases out with
        | mk rest2 b2 =>
          rw [hr] at h
          simp only [Option.some.injEq, Prod.mk.injEq] at h
          obtain ⟨hr2, hb2⟩ := applyFit_skip rest id r s rest2 b2
            (fun x hx => hfr x (by simp [hx])) hr
          rw [← h.1, ← h.2, hr2, hb2]
          exact ⟨rfl, rfl⟩

/-- The fit walk preserves the identifier sequence of the window list. -/
theorem fitTree_ids : ∀ (t : Node) (area : Rectangle) (ws : List Window) (s : ℚ)
    (out : List Window × Nat), fitTree t area ws s = .ok out →
    out.1.map Window.id = ws.map Window.id
  | .mk (.container c) none none, area, ws, s, out, h => by
    simp only [fitTree, Except.ok.injEq] at h
    rw [← h]
  | .mk (.tile t) l r, area, ws, s, out, h => by
    simp only [fitTree] at h
    cases ha : applyFit ws t.id area s with
    | none => rw [ha] at h; simp at h
    | some o =>
      cases o with
      | mk ws2 b =>
        rw [ha] at h
        simp only [Except.ok.injEq] at h
        rw [← h]
        exact applyFit_ids ws t.id area s ws2 b ha
  | .mk (.container c) (some l) (some r), area, ws, s, out, h => by
    cases hfl : fitTree l (childAreas area c).1 ws s with
    | error e =>
      have hred : fitTree (.mk (.container c) (some l) (some r)) area ws s = .error e := by
        simp only [fitTree, hfl]
      rw [hred] at h
      exact absurd h (by simp)
    | ok o1 =>
      cases o1 with
      | mk ws1 n1 =>
        cases hfr : fitTree r (childAreas area c).2 ws1 s with
        | error e =>
          have hred : fitTree (.mk (.container c) (some l) (some r)) area ws s
              = .error e := by
            simp only [fitTree, hfl, hfr]
          rw [hred] at h
          exact absurd h (by simp)
        | ok o2 =>
          cases o2 with
          | mk ws2 n2 =>
            have hred : fitTree (.mk (.container c) (some l) (some r)) area ws s
                = .ok (ws2, n1 + n2) := by
              simp only [fitTree, hfl, hfr]
            rw [hred] at h
            simp only [Except.ok.injEq] at h
            rw [← h]
            rw [show ((ws2, n1 + n2) : List Window × Nat).1 = ws2 from rfl,
              fitTree_ids r (childAreas area c).2 ws1 s (ws2, n2) hfr,
              fitTree_ids l (childAreas area c).1 ws s (ws1, n1) hfl]
  | .mk (.container c) (some l) none, area, ws, s, out, h => by simp [fitTree] at h
  | .mk (.container c) none (some r), area, ws, s, out, h => by simp [fitTree] at h

/-- Strict well-formedness implies the loose shape predicate. -/
theorem wfLoose_of_wfStrict : ∀ (t : Node), wfStrict t = true → wfLoose t = true
  | .mk (.tile t) none none, _ => rfl
  | .mk (.tile t) (some x) r, hw => by simp [wfStrict] at hw
  | .mk (.tile t) none (some y), hw => by simp [wfStrict] at hw
  | .mk (.container c) none none, hw => by simp [wfStrict] at hw
  | .mk (.container c) (some l) none, hw => by simp [wfStrict] at hw
  | .mk (.container c) none (some r), hw => by simp [wfStrict] at hw
  | .mk (.container c) (some l) (some r), hw => by
    obtain ⟨hl, hr⟩ := wfStrict_children c l r hw
    have : (wfLoose l && wfLoose r) = true := by
      rw [wfLoose_of_wfStrict l hl, wfLoose_of_wfStrict r hr]
      rfl
    exact this

/-- Validity implies the loose shape predicate. -/
theorem wfLoose_of_wf (t : Node) (h : wf t = true) : wfLoose t = true := by
  cases t with
  | mk d l r =>
    cases d with
    | container c =>
      cases l with
      | none =>
        cases r with
        | none => rfl
        | some y => exact wfLoose_of_wfStrict _ h
      | some x => exact wfLoose_of_wfStrict _ h
    | tile t2 => exact wfLoose_of_wfStrict _ h

/-- Both children of a loosely well-formed populated container are loosely
well-formed. -/
theorem wfLoose_children (c : Container) (l r : Node)
    (h : wfLoose (.mk (.container c) (some l) (some r)) = true) :
    wfLoose l = true ∧ wfLoose r = true := by
  have h2 : (wfLoose l && wfLoose r) = true := h
  simpa using h2

/-- The fit walk assigns no rectangle to an identifier exactly when the
identifier is not among the tile identifiers (for loosely well-formed
trees). -/
theorem assignRect_none_iff : ∀ (t : Node) (area : Rectangle) (i : Nat),
    wfLoose t = true → (assignRect t area i = none ↔ i ∉ tileIds t)
  | .mk (.tile t) none none, area, i, _ => by
    by_cases ht : t.id = i
    · constructor
      · intro h
        simp [assignRect, ht] at h
      · intro h
        exact absurd (by rw [tileIds_node]; simp [ht]) h
    · constructor
      · intro _ hmem
        rw [tileIds_node] at hmem
        simp at hmem
        exact ht hmem.symm
      · intro _
        simp [assignRect, ht]
  | .mk (.tile t) (some x) r, area, i, hw => by simp [wfLoose] at hw
  | .mk (.tile t) none (some y), area, i, hw => by simp [wfLoose] at hw
  | .mk (.container c) none none, area, i, _ => by
    simp [assignRect, tileIds]
  | .mk (.container c) (some l) none, area, i, hw => by simp [wfLoose] at hw
  | .mk (.container c) none (some r), area, i, hw => by simp [wfLoose] at hw
  | .mk (.container c) (some l) (some r), area, i, hw => by
    obtain ⟨hwl, hwr⟩ := wfLoose_children c l r hw
    have ihl := assignRect_none_iff l (childAreas area c).1 i hwl
    have ihr := assignRect_none_iff r (childAreas area c).2 i hwr
    rw [tileIds_container]
    simp only [assignRect]
    cases hal : assignRect l (childAreas area c).1 i with
    | some r2 =>
      have hmem : i ∈ tileIds l := by
        by_contra hmem
        rw [← ihl] at hmem
        rw [hmem] at hal
        exact Option.noConfusion hal
      constructor
      · intro h
        exact Option.noConfusion h
      · intro h
        exact absurd (List.mem_append.mpr (Or.inl hmem)) h
    | none =>
      have hnl : i ∉ tileIds l := ihl.mp hal
      constructor
      · intro h hmem
        rcases List.mem_append.mp hmem with hm | hm
        · exact hnl hm
        · exact (ihr.mp h) hm
      · intro h
        exact ihr.mpr (fun hm => h (List.mem_append.mpr (Or.inr hm)))

/-- The one-pass window update preserves the identifier. -/
theorem updFn_id (t : Node) (area : Rectangle) (s : ℚ) (w : Window) :
    (updFn t area s w).id = w.id := by
  cases h : assignRect t area w.id with
  | none => simp [updFn, h]
  | some r => simp [updFn, h, fitWindow_id]

/-- The one-pass window update is idempotent on a single window. -/
theorem updFn_idem (t : Node) (area : Rectangle) (s : ℚ) (w : Window) :
    updFn t area s (updFn t area s w) = updFn t area s w := by
  cases h : assignRect t area w.id with
  | none => simp [updFn, h]
  | some r =>
    have h1 : updFn t area s w = (fitWindow w r s).1 := by simp [updFn, h]
    rw [h1]
    have hid : ((fitWindow w r s).1).id = w.id := fitWindow_id w r s
    simp [updFn, hid, h, fitWindow_stable]

/-- Characterization of one fit pass: under unique tile identifiers, unique
window identifiers and presence of every referenced window, the pass
succeeds and rewrites the window list pointwise by the assigned rectangles. -/
theorem fitTree_char : ∀ (t : Node) (area : Rectangle) (ws : List Window) (s : ℚ),
    wfLoose t = true → (tileIds t).Nodup → (ws.map Window.id).Nodup →
    (∀ i ∈ tileIds t, i ∈ ws.map Window.id) →
    ∃ n, fitTree t area ws s = .ok (ws.map (updFn t area s), n)
  | .mk (.container c) none none, area, ws, s, _, _, _, _ => by
    refine ⟨0, ?_⟩
    have hupd : ws.map (updFn (.mk (.container c) none none) area s) = ws :=
      map_fix _ ws (fun w _ => by simp [updFn, assignRect])
    rw [hupd]
    simp [fitTree]
  | .mk (.tile t) none none, area, ws, s, _, _, hnw, hpres => by
    have hmem : t.id ∈ ws.map Window.id := hpres t.id (by rw [tileIds_node]; simp)
    obtain ⟨w0, hw0, hid0⟩ := List.mem_map.mp hmem
    obtain ⟨out, hout⟩ := applyFit_total ws t.id area s ⟨w0, hw0, hid0⟩
    cases out with
    | mk ws2 b =>
      have hchar := applyFit_char ws t.id area s ws2 b hnw hout
      have hmaps : ws.map (fun w => if w.id = t.id then (fitWindow w area s).1 else w)
          = ws.map (updFn (.mk (.tile t) none none) area s) := by
        apply List.map_congr_left
        intro w _
        by_cases hw : w.id = t.id
        · simp [updFn, assignRect, hw]
        · have hw2 : ¬t.id = w.id := fun h2 => hw h2.symm
          simp [updFn, assignRect, hw, hw2]
      refine ⟨if b then 1 else 0, ?_⟩
      simp only [fitTree, hout]
      rw [hchar, hmaps]
  | .mk (.tile t) (some x) r, area, ws, s, hw, _, _, _ => by simp [wfLoose] at hw
  | .mk (.tile t) none (some y), area, ws, s, hw, _, _, _ => by simp [wfLoose] at hw
  | .mk (.container c) (some l) none, area, ws, s, hw, _, _, _ => by simp [wfLoose] at hw
  | .mk (.container c) none (some r), area, ws, s, hw, _, _, _ => by simp [wfLoose] at hw
  | .mk (.container c) (some l) (some r), area, ws, s, hwf, hnd, hnw, hpres => by
    obtain ⟨hwfl, hwfr⟩ := wfLoose_children c l r hwf
    rw [tileIds_container] at hnd hpres
    have hndl : (tileIds l).Nodup := (List.nodup_append.mp hnd).1
    have hndr : (tileIds r).Nodup := (List.nodup_append.mp hnd).2.1
    have hdisj : ∀ a ∈ tileIds l, a ∉ tileIds r := (List.nodup_append.mp hnd).2.2
    obtain ⟨n1, h1⟩ := fitTree_char l (childAreas area c).1 ws s hwfl hndl hnw
      (fun i hi => hpres i (List.mem_append.mpr (Or.inl hi)))
    have hids1 : (ws.map (updFn l (childAreas area c).1 s)).map Window.id
        = ws.map Window.id := by
      rw [List.map_map]
      exact List.map_congr_left (fun w _ => updFn_id l (childAreas area c).1 s w)
    obtain ⟨n2, h2⟩ := fitTree_char r (childAreas area c).2
      (ws.map (updFn l (childAreas area c).1 s)) s hwfr hndr
      (by rw [hids1]; exact hnw)
      (fun i hi => by rw [hids1]; exact hpres i (List.mem_append.mpr (Or.inr hi)))
    have hcomp : (ws.map (updFn l (childAreas area c).1 s)).map
        (updFn r (childAreas area c).2 s)
        = ws.map (updFn (.mk (.container c) (some l) (some r)) area s) := by
      rw [List.map_map]
      apply List.map_congr_left
      intro w _
      show updFn r (childAreas area c).2 s (updFn l (childAreas area c).1 s w) = _
      cases hal : assignRect l (childAreas area c).1 w.id with
      | some r2 =>
        have hmeml : w.id ∈ tileIds l := by
          by_contra hmem
          have hnone := (assignRect_none_iff l (childAreas area c).1 w.id hwfl).mpr hmem
          rw [hnone] at hal
          exact Option.noConfusion hal
        have harn : assignRect r (childAreas area c).2 w.id = none :=
          (assignRect_none_iff r (childAreas area c).2 w.id hwfr).mpr (hdisj w.id hmeml)
        have hfl2 : updFn l (childAreas area c).1 s w = (fitWindow w r2 s).1 := by
          simp [updFn, hal]
        rw [hfl2]
        have hid : ((fitWindow w r2 s).1).id = w.id := fitWindow_id w r2 s
        have hstep : updFn r (childAreas area c).2 s (fitWindow w r2 s).1
            = (fitWindow w r2 s).1 := by
          simp [updFn, hid, harn]
        rw [hstep]
        simp [updFn, assignRect, hal]
      | none =>
        have hfl2 : updFn l (childAreas area c).1 s w = w := by simp [updFn, hal]
        rw [hfl2]
        simp [updFn, assignRect, hal]
    refine ⟨n1 + n2, ?_⟩
    simp only [fitTree, h1, h2]
    rw [hcomp]

/-- When every tile identifier of the tree has a window in the list, the fit
walk never fails on a window lookup (it may still reject a malformed node as
a corrupt tree, which is a different error). -/
theorem fitTree_no_dangling : ∀ (t : Node) (area : Rectangle) (ws : List Window) (s : ℚ),
    (∀ i ∈ tileIds t, i ∈ ws.map Window.id) →
    ∀ j, fitTree t area ws s ≠ .error (.danglingId j)
  | .mk (.container c) none none, area, ws, s, _, j => by simp [fitTree]
  | .mk (.tile t) l r, area, ws, s, hpres, j => by
    have hmem : t.id ∈ ws.map Window.id := hpres t.id (by rw [tileIds_node]; simp)
    obtain ⟨w0, hw0, hid0⟩ := List.mem_map.mp hmem
    obtain ⟨out, hout⟩ := applyFit_total ws t.id area s ⟨w0, hw0, hid0⟩
    cases out with
    | mk ws2 b =>
      have hred : fitTree (.mk (.tile t) l r) area ws s
          = .ok (ws2, if b then 1 else 0) := by
        simp only [fitTree, hout]
      rw [hred]
      simp
  | .mk (.container c) (some l) (some r), area, ws, s, hpres, j => by
    have hpl : ∀ i ∈ tileIds l, i ∈ ws.map Window.id := fun i hi =>
      hpres i (by rw [tileIds_container]; exact List.mem_append.mpr (Or.inl hi))
    cases hfl : fitTree l (childAreas area c).1 ws s with
    | error e =>
      have hred : fitTree (.mk (.container c) (some l) (some r)) area ws s = .error e := by
        simp only [fitTree, hfl]
      rw [hred]
      intro heq
      have he : e = .danglingId j := by
        simpa using heq
      exact fitTree_no_dangling l (childAreas area c).1 ws s hpl j (by rw [hfl, he])
    | ok o1 =>
      cases o1 with
      | mk ws1 n1 =>
        have hids := fitTree_ids l (childAreas area c).1 ws s (ws1, n1) hfl
        have hpr : ∀ i ∈ tileIds r, i ∈ ws1.map Window.id := fun i hi => by
          rw [show ((ws1, n1) : List Window × Nat).1 = ws1 from rfl] at hids
          rw [hids]
          exact hpres i (by rw [tileIds_container]; exact List.mem_append.mpr (Or.inr hi))
        cases hfr : fitTree r (childAreas area c).2 ws1 s with
        | error e =>
          have hred : fitTree (.mk (.container c) (some l) (some r)) area ws s
              = .error e := by
            simp only [fitTree, hfl, hfr]
          rw [hred]
          intro heq
          have he : e = .danglingId j := by
            simpa using heq
          exact fitTree_no_dangling r (childAreas area c).2 ws1 s hpr j (by rw [hfr, he])
        | ok o2 =>
          cases o2 with
          | mk ws2 n2 =>
            have hred : fitTree (.mk (.container c) (some l) (some r)) area ws s
                = .ok (ws2, n1 + n2) := by
              simp only [fitTree, hfl, hfr]
            rw [hred]
            simp
  | .mk (.container c) (some l) none, area, ws, s, _, j => by simp [fitTree]
  | .mk (.container c) none (some r), area, ws, s, _, j => by simp [fitTree]

/-- When every window already carries the rectangle the walk would assign to
it, the fit walk leaves the list unchanged and performs zero moves (the
no-op short-circuit triggers at every tile). -/
theorem fitTree_allskip : ∀ (t : Node) (area : Rectangle) (ws : List Window) (s : ℚ),
    wfLoose t = true → (tileIds t).Nodup →
    (∀ i ∈ tileIds t, i ∈ ws.map Window.id) →
    (∀ w ∈ ws, ∀ r2, assignRect t area w.id = some r2 → w.frame = r2) →
    fitTree t area ws s = .ok (ws, 0)
  | .mk (.container c) none none, area, ws, s, _, _, _, _ => by simp [fitTree]
  | .mk (.tile t) none none, area, ws, s, _, _, hpres, hfr => by
    have hmem : t.id ∈ ws.map Window.id := hpres t.id (by rw [tileIds_node]; simp)
    obtain ⟨w0, hw0, hid0⟩ := List.mem_map.mp hmem
    obtain ⟨out, hout⟩ := applyFit_total ws t.id area s ⟨w0, hw0, hid0⟩
    cases out with
    | mk ws2 b =>
      obtain ⟨hws2, hb⟩ := applyFit_skip ws t.id area s ws2 b
        (fun w hw hid => hfr w hw area (by simp [assignRect, hid])) hout
      simp only [fitTree, hout, hws2, hb]
      rfl
  | .mk (.tile t) (some x) r, area, ws, s, hw, _, _, _ => by simp [wfLoose] at hw
  | .mk (.tile t) none (some y), area, ws, s, hw, _, _, _ => by simp [wfLoose] at hw
  | .mk (.container c) (some l) none, area, ws, s, hw, _, _, _ => by simp [wfLoose] at hw
  | .mk (.container c) none (some r), area, ws, s, hw, _, _, _ => by simp [wfLoose] at hw
  | .mk (.container c) (some l) (some r), area, ws, s, hwf, hnd, hpres, hfr => by
    obtain ⟨hwfl, hwfr⟩ := wfLoose_children c l r hwf
    rw [tileIds_container] at hnd hpres
    have hndl : (tileIds l).Nodup := (List.nodup_append.mp hnd).1
    have hndr : (tileIds r).Nodup := (List.nodup_append.mp hnd).2.1
    have hdisj : ∀ a ∈ tileIds l, a ∉ tileIds r := (List.nodup_append.mp hnd).2.2
    have hfl : fitTree l (childAreas area c).1 ws s = .ok (ws, 0) :=
      fitTree_allskip l (childAreas area c).1 ws s hwfl hndl
        (fun i hi => hpres i (List.mem_append.mpr (Or.inl hi)))
        (fun w hw r2 har => hfr w hw r2 (by simp [assignRect, har]))
    have hfr2 : fitTree r (childAreas area c).2 ws s = .ok (ws, 0) :=
      fitTree_allskip r (childAreas area c).2 ws s hwfr hndr
        (fun i hi => hpres i (List.mem_append.mpr (Or.inr hi)))
        (fun w hw r2 har => by
          have hmemr : w.id ∈ tileIds r := by
            by_contra hmem
            have hnone := (assignRect_none_iff r (childAreas area c).2 w.id hwfr).mpr hmem
            rw [hnone] at har
            exact Option.noConfusion har
          have hnl : w.id ∉ tileIds l := fun hm => hdisj w.id hm hmemr
          have hlnone : assignRect l (childAreas area c).1 w.id = none :=
            (assignRect_none_iff l (childAreas area c).1 w.id hwfl).mpr hnl
          exact hfr w hw r2 (by simp [assignRect, hlnone, har]))
    simp only [fitTree, hfl, hfr2]

/-- C9: under the precondition that every tile identifier of the tree names a
window in the live list, the fit walk never takes the failed-lookup branch,
whatever the tree shape; without the precondition there is a tree and a
window list (a single tile with an empty list) on which the lookup fails and
the walk crashes with that tile's identifier. -/
theorem fitTree_dangling_lookup :
    (∀ (t : Node) (area : Rectangle) (ws : List Window) (s : ℚ),
      (∀ i ∈ tileIds t, i ∈ ws.map Window.id) →
      ∀ j, fitTree t area ws s ≠ .error (.danglingId j)) ∧
    fitTree (.mk (.tile ⟨1, false⟩) none none) ⟨0, 0, 100, 100⟩ [] 0 =
      .error (.danglingId 1) := by
  exact ⟨fitTree_no_dangling, rfl⟩

/-- C9 witness: the precondition part of fitTree_dangling_lookup at a
concrete tree and matching window list. -/
theorem fitTree_dangling_lookup_witness :
    fitTree (.mk (.tile ⟨1, false⟩) none none) ⟨0, 0, 100, 100⟩
      [⟨1, ⟨0, 0, 100, 100⟩⟩] 0 ≠ .error (.danglingId 1) :=
  fitTree_dangling_lookup.1 _ _ _ _ (by decide) 1

/-- C4 amended: under valid tree shape, unique tile identifiers, unique
window identifiers and presence of every referenced window, a second fit
pass with no intervening tree mutation returns the same window rectangles as
the first pass; when the configured spacing is zero the second pass performs
zero moves (the no-op short-circuit triggers at every tile), but with
non-zero spacing the short-circuit does not trigger (the frames differ from
the assigned rectangles by the spacing margins) even though the rectangles
stay the same. -/
theorem fit_idempotent (t : Node) (area : Rectangle) (ws ws1 : List Window) (s : ℚ)
    (n1 : Nat) (hwf : wf t = true) (hnd : (tileIds t).Nodup)
    (hnw : (ws.map Window.id).Nodup)
    (hpres : ∀ i ∈ tileIds t, i ∈ ws.map Window.id)
    (h1 : fitTree t area ws s = .ok (ws1, n1)) :
    (∃ n2, fitTree t area ws1 s = .ok (ws1, n2)) ∧
    (s = 0 → fitTree t area ws1 0 = .ok (ws1, 0)) := by
  have hloose : wfLoose t = true := wfLoose_of_wf t hwf
  obtain ⟨n1x, hchar⟩ := fitTree_char t area ws s hloose hnd hnw hpres
  rw [h1] at hchar
  simp only [Except.ok.injEq, Prod.mk.injEq] at hchar
  have hws1 : ws1 = ws.map (updFn t area s) := hchar.1
  have hids : ws1.map Window.id = ws.map Window.id := by
    rw [hws1, List.map_map]
    exact List.map_congr_left (fun w _ => updFn_id t area s w)
  have hnw1 : (ws1.map Window.id).Nodup := by rw [hids]; exact hnw
  have hpres1 : ∀ i ∈ tileIds t, i ∈ ws1.map Window.id := fun i hi => by
    rw [hids]
    exact hpres i hi
  have hfix : ws1.map (updFn t area s) = ws1 := by
    rw [hws1, List.map_map]
    exact List.map_congr_left (fun w _ => updFn_idem t area s w)
  constructor
  · obtain ⟨n2, h2⟩ := fitTree_char t area ws1 s hloose hnd hnw1 hpres1
    rw [hfix] at h2
    exact ⟨n2, h2⟩
  · intro hs0
    subst hs0
    apply fitTree_allskip t area ws1 0 hloose hnd hpres1
    intro w1 hw1 r2 har
    rw [hws1] at hw1
    obtain ⟨w0, hw0, rfl⟩ := List.mem_map.mp hw1
    rw [updFn_id t area 0 w0] at har
    cases ha : assignRect t area w0.id with
    | none =>
      rw [ha] at har
      exact Option.noConfusion har
    | some r3 =>
      rw [ha] at har
      have hr23 : r3 = r2 := by
        simpa using har
      subst hr23
      simp [updFn, ha, fitWindow_frame_zero]

/-- C4 witness: fit_idempotent at a single-tile tree, one window, zero
spacing. -/
theorem fit_idempotent_witness :
    (∃ n2, fitTree (.mk (.tile ⟨1, false⟩) none none) ⟨0, 0, 100, 100⟩
        [⟨1, ⟨0, 0, 100, 100⟩⟩] 0 = .ok ([⟨1, ⟨0, 0, 100, 100⟩⟩], n2)) ∧
    ((0 : ℚ) = 0 → fitTree (.mk (.tile ⟨1, false⟩) none none) ⟨0, 0, 100, 100⟩
        [⟨1, ⟨0, 0, 100, 100⟩⟩] 0 = .ok ([⟨1, ⟨0, 0, 100, 100⟩⟩], 0)) :=
  fit_idempotent (.mk (.tile ⟨1, false⟩) none none) ⟨0, 0, 100, 100⟩
    [⟨1, ⟨0, 0, 0, 0⟩⟩] [⟨1, ⟨0, 0, 100, 100⟩⟩] 0 1
    (by decide) (by decide) (by decide) (by decide)
    (by norm_num [fitTree, applyFit, fitWindow, shrinkBySpacing])

/-- C4 counterexample: with spacing 10, fitting a single-tile tree moves the
window to the assigned rectangle shrunk by the spacing; on the second call
the frame (10,10,80,80) differs from the assigned rectangle (0,0,100,100),
so the no-op short-circuit does not trigger: the second pass again performs
one move (count 1, not 0), although the resulting rectangle is unchanged. -/
theorem fit_second_pass_not_skipped :
    fitTree (.mk (.tile ⟨1, false⟩) none none) ⟨0, 0, 100, 100⟩
      [⟨1, ⟨0, 0, 0, 0⟩⟩] 10 = .ok ([⟨1, ⟨10, 10, 80, 80⟩⟩], 1) ∧
    fitTree (.mk (.tile ⟨1, false⟩) none none) ⟨0, 0, 100, 100⟩
      [⟨1, ⟨10, 10, 80, 80⟩⟩] 10 = .ok ([⟨1, ⟨10, 10, 80, 80⟩⟩], 1) := by
  constructor
  · norm_num [fitTree, applyFit, fitWindow, shrinkBySpacing]
  · norm_num [fitTree, applyFit, fitWindow, shrinkBySpacing]

end HyprWM
